import Mathlib

/-!
Verification of the MSM construction and metastable-kinetics subsystem of
AMMo (`src/ammo/msm/_msm.py`), as a shallow embedding in Lean 4.

Modelling conventions:

* numpy float arrays are modelled as lists of rationals; values that numpy
  holds as NaN (the mean of an empty slice) are modelled as `none` in
  `Option ℚ`, together with the NaN propagation rules of the operations this
  code performs on them (`== 0.0` is false for NaN, `ndarray.max` propagates
  NaN, `np.argmin` returns the position of the first NaN, `np.argsort` puts
  NaN last);
* the external numerical kernels of numpy/pyemma (`np.linalg.norm` of a
  center, the Euclidean distance of two vectors, the Bayesian estimator, the
  scipy Gaussian fit) are abstracted as function parameters of the embedded
  operations, which model the orchestration logic of `_msm.py` itself;
* `numpy.ndarray.sort` and `np.argsort` are modelled with insertion sort
  (the claims never depend on the order of exact ties).
-/

namespace AMMo

/-- A point of feature space (a cluster center) as a vector of rationals. -/
abbrev Vec := List ℚ

/-- Model of `numpy.ndarray.sort` on an integer array (`disconnected_sets.sort()`,
`modified_state.sort()`, `state_to_add.sort()` in `_msm.py`). -/
def sortNat (l : List ℕ) : List ℕ := List.insertionSort (· ≤ ·) l

/-- The insertion loop of `MSM.build_msm` (`_msm.py` lines 1246-1247) and of
`MSM.__build_bootstrapped_msm` (lines 1776-1777):
`for center in disconnected_sets: np.insert(stationary_distribution, center, 0.0)`. -/
def insertZeros (sd : List ℚ) (d : List ℕ) : List ℚ :=
  d.foldl (fun acc c => List.insertIdx c 0 acc) sd

/-- The trailing top-up loop of `MSM.build_msm` (lines 1251-1252) and of
`MSM.__build_bootstrapped_msm` (lines 1778-1779):
`while len(stationary_distribution) != len(cluster_centers): np.append(..., 0.0)`.
The Python loop terminates exactly when the current length is at most `K`, in
which case it appends `K - length` zeros, which is what this definition does. -/
def padZeros (K : ℕ) (l : List ℚ) : List ℚ := l ++ List.replicate (K - l.length) 0

/-- The full disconnected-set fix-up both `MSM.build_msm` and
`MSM.__build_bootstrapped_msm` apply to the active-set stationary distribution
`sd`: sort the concatenated disconnected microstate indices `d`, insert a zero
probability at each of them in ascending order, then pad with zeros up to the
cluster count `K`. -/
def buildStationary (sd : List ℚ) (d : List ℕ) (K : ℕ) : List ℚ :=
  padZeros K (insertZeros sd (sortNat d))

theorem getD_insertIdx_gt (l : List ℚ) (p c : ℕ) (x d : ℚ) (h : c < p) :
    (List.insertIdx p x l).getD c d = l.getD c d := by
  induction l generalizing p c with
  | nil =>
    cases p with
    | zero => omega
    | succ p => rfl
  | cons hd tl ih =>
    cases p with
    | zero => omega
    | succ p =>
      cases c with
      | zero => rfl
      | succ c => simpa using ih p c (by omega)

theorem head_add_length_le (a : ℕ) (t : List ℕ) (m : ℕ)
    (hp : (a :: t).Pairwise (· < ·)) (hm : ∀ x ∈ a :: t, x < m) :
    a + t.length + 1 ≤ m := by
  induction t generalizing a with
  | nil =>
    have := hm a (by simp)
    simpa using this
  | cons b t2 ih =>
    have hab : a < b := (List.pairwise_cons.mp hp).1 b (by simp)
    have hb := ih b hp.of_cons (fun x hx => hm x (List.mem_cons_of_mem a hx))
    simp only [List.length_cons]
    omega

theorem insertZeros_length (s : List ℕ) (sd : List ℚ)
    (hp : s.Pairwise (· < ·)) (hm : ∀ x ∈ s, x < sd.length + s.length) :
    (insertZeros sd s).length = sd.length + s.length := by
  induction s generalizing sd with
  | nil => simp [insertZeros]
  | cons c t ih =>
    have hc : c ≤ sd.length := by
      have := head_add_length_le c t (sd.length + (c :: t).length) hp hm
      simp only [List.length_cons] at this
      omega
    have hlen : (List.insertIdx c 0 sd).length = sd.length + 1 :=
      List.length_insertIdx c sd hc
    have hstep : insertZeros sd (c :: t) = insertZeros (List.insertIdx c 0 sd) t := rfl
    rw [hstep, ih (List.insertIdx c 0 sd) hp.of_cons]
    · rw [hlen]; simp; omega
    · intro x hx
      have := hm x (List.mem_cons_of_mem c hx)
      rw [hlen]
      simp only [List.length_cons] at this
      omega

theorem insertZeros_getD_lt (t : List ℕ) (l : List ℚ) (c : ℕ)
    (hgt : ∀ x ∈ t, c < x) :
    (insertZeros l t).getD c 1 = l.getD c 1 := by
  induction t generalizing l with
  | nil => rfl
  | cons a t2 ih =>
    have hstep : insertZeros l (a :: t2) = insertZeros (List.insertIdx a 0 l) t2 := rfl
    rw [hstep, ih (List.insertIdx a 0 l) (fun x hx => hgt x (List.mem_cons_of_mem a hx))]
    exact getD_insertIdx_gt l a c 0 1 (hgt a (by simp))

theorem insertZeros_getD_mem (s : List ℕ) (sd : List ℚ)
    (hp : s.Pairwise (· < ·)) (hm : ∀ x ∈ s, x < sd.length + s.length) :
    ∀ c ∈ s, (insertZeros sd s).getD c 1 = 0 := by
  induction s generalizing sd with
  | nil => simp
  | cons a t ih =>
    intro c hc
    have ha : a ≤ sd.length := by
      have := head_add_length_le a t (sd.length + (a :: t).length) hp hm
      simp only [List.length_cons] at this
      omega
    have hlen : (List.insertIdx a 0 sd).length = sd.length + 1 :=
      List.length_insertIdx a sd ha
    have hstep : insertZeros sd (a :: t) = insertZeros (List.insertIdx a 0 sd) t := rfl
    rcases List.mem_cons.mp hc with rfl | hct
    · rw [hstep, insertZeros_getD_lt t (List.insertIdx c 0 sd) c
        (fun x hx => (List.pairwise_cons.mp hp).1 x hx)]
      have hclen : c < (List.insertIdx c 0 sd).length := by omega
      rw [List.getD_eq_getElem _ 1 hclen]
      exact List.getElem_insertIdx_self sd 0 c ha
    · rw [hstep]
      refine ih (List.insertIdx a 0 sd) hp.of_cons ?_ c hct
      intro x hx
      have := hm x (List.mem_cons_of_mem a hx)
      rw [hlen]
      simp only [List.length_cons] at this
      omega

theorem sortNat_perm (l : List ℕ) : (sortNat l).Perm l :=
  List.perm_insertionSort (· ≤ ·) l

theorem sortNat_sorted (l : List ℕ) : (sortNat l).Sorted (· ≤ ·) :=
  List.sorted_insertionSort (· ≤ ·) l

theorem sortNat_pairwise_lt (l : List ℕ) (hnd : l.Nodup) :
    (sortNat l).Pairwise (· < ·) := by
  have hsorted := sortNat_sorted l
  have hnodup : (sortNat l).Nodup := ((sortNat_perm l).nodup_iff).mpr hnd
  exact hsorted.lt_of_le hnodup

/-- C1: after `build_msm` (and likewise after each `__build_bootstrapped_msm`),
the stationary distribution has length exactly K: a zero is inserted at each
disconnected microstate index in ascending order, zeros are appended up to the
cluster count, and every microstate absent from the connected set carries an
explicit 0 entry.  Hypotheses: the disconnected indices are distinct original
microstate indices below the total number of observed microstates
(`sd.length + d.length`, active states plus disconnected states), and at most
K microstates were observed. -/
theorem buildStationary_spec (sd : List ℚ) (d : List ℕ) (K : ℕ)
    (hnd : d.Nodup) (hm : ∀ x ∈ d, x < sd.length + d.length)
    (hK : sd.length + d.length ≤ K) :
    (buildStationary sd d K).length = K ∧
    (∀ c ∈ d, (buildStationary sd d K).getD c 1 = 0) ∧
    (∀ k, sd.length + d.length ≤ k → k < K → (buildStationary sd d K).getD k 1 = 0) := by
  have hperm := sortNat_perm d
  have hlen_s : (sortNat d).length = d.length := hperm.length_eq
  have hm_s : ∀ x ∈ sortNat d, x < sd.length + (sortNat d).length := by
    intro x hx
    rw [hlen_s]
    exact hm x (hperm.mem_iff.mp hx)
  have hp := sortNat_pairwise_lt d hnd
  have hinner : (insertZeros sd (sortNat d)).length = sd.length + d.length := by
    rw [insertZeros_length (sortNat d) sd hp hm_s, hlen_s]
  refine ⟨?_, ?_, ?_⟩
  · simp only [buildStationary, padZeros, List.length_append, List.length_replicate, hinner]
    omega
  · intro c hc
    have hmem : c ∈ sortNat d := hperm.mem_iff.mpr hc
    have hzero := insertZeros_getD_mem (sortNat d) sd hp hm_s c hmem
    have hclt : c < (insertZeros sd (sortNat d)).length := by
      rw [hinner]; exact hm c hc
    simp only [buildStationary, padZeros]
    rw [List.getD_append _ _ _ _ hclt]
    exact hzero
  · intro k hk1 hk2
    simp only [buildStationary, padZeros]
    rw [List.getD_append_right _ _ _ _ (by omega)]
    have hlt : k - (insertZeros sd (sortNat d)).length <
        (List.replicate (K - (insertZeros sd (sortNat d)).length) (0 : ℚ)).length := by
      rw [List.length_replicate]; omega
    rw [List.getD_eq_getElem _ _ hlt, List.getElem_replicate]

/-- Witness for C1 at a concrete input: 2 active microstates, disconnected
microstates 3 and 1 (given unsorted), 5 cluster centers. -/
theorem buildStationary_witness :
    buildStationary [3, 4] [3, 1] 5 = [3, 0, 4, 0, 0] ∧
    (buildStationary [3, 4] [3, 1] 5).length = 5 :=
  ⟨by decide, (buildStationary_spec [3, 4] [3, 1] 5 (by decide) (by decide) (by decide)).1⟩

/-- An entry of the `mfpt` and `mfpr` tables kept by an MSM: the ordered
macrostate pair key, the mean, the standard deviation, and the time unit. -/
abbrev RateEntry := (ℕ × ℕ) × ℚ × ℚ × String

/-- The rate computation of `MSM.compute_mfpr` (`_msm.py` lines 1606-1609):
for each mfpt entry, `rate = 1 / mean`, `error = rate * (std / mean)`, and the
unit is carried over unchanged. -/
def compute_mfpr (mfptTable : List RateEntry) : List RateEntry :=
  mfptTable.map (fun e => (e.1, 1 / e.2.1, (1 / e.2.1) * (e.2.2.1 / e.2.1), e.2.2.2))

/-- C7: for every assignment key and ordered macrostate pair with an mfpt
entry of mean m, std s and unit u (with the mean nonzero, as any mean first
passage time is), `compute_mfpr` stores rate 1/m with propagated error
(1/m)·(s/m) and the unchanged unit u, and the stored rate is the exact
reciprocal of the mfpt mean. -/
theorem compute_mfpr_spec (tbl : List RateEntry) (k : ℕ × ℕ) (m s : ℚ) (u : String)
    (hmem : (k, m, s, u) ∈ tbl) (hm : m ≠ 0) :
    ((k, 1 / m, (1 / m) * (s / m), u) ∈ compute_mfpr tbl) ∧ (1 / m) * m = 1 := by
  constructor
  · exact List.mem_map_of_mem _ hmem
  · field_simp

/-- Witness for C7 at a concrete table: the 1→2 entry with mean 2 and std 1. -/
theorem compute_mfpr_witness :
    (((1, 2), (1 : ℚ) / 2, ((1 : ℚ) / 2) * (1 / 2), "us") ∈
      compute_mfpr [((1, 2), 2, 1, "us")]) ∧ ((1 : ℚ) / 2) * 2 = 1 :=
  compute_mfpr_spec [((1, 2), 2, 1, "us")] (1, 2) 2 1 "us" (by simp) (by norm_num)

/-- The missing-data policy of `MSM.load_data`. -/
inductive MissingPolicy
| error
| warn
| ignore

/-- Observable outcome of `MSM.load_data`: the loaded feature arrays
(`self.data`), the recorded missing locations (`missing_idx`, reported at the
end), and the raised error location if an `IOError` aborted the call. -/
structure LoadResult (τ δ : Type) where
  data : List δ
  missingLocs : List τ
  raised : Option τ
deriving Repr

/-- The per-trajectory loop of `MSM.load_data` (`_msm.py` lines 1058-1078):
a trajectory whose required feature files are all `present` is loaded; a
missing one raises immediately under `error`, is recorded under `warn`, and is
skipped silently under `ignore`. -/
def load_data {τ δ : Type} (present : τ → Bool) (loadTraj : τ → δ) (pol : MissingPolicy) :
    List τ → LoadResult τ δ
  | [] => ⟨[], [], none⟩
  | t :: ts =>
    if present t then
      let r := load_data present loadTraj pol ts
      ⟨loadTraj t :: r.data, r.missingLocs, r.raised⟩
    else
      match pol with
      | .error => ⟨[], [], some t⟩
      | .warn =>
        let r := load_data present loadTraj pol ts
        ⟨r.data, t :: r.missingLocs, r.raised⟩
      | .ignore => load_data present loadTraj pol ts

/-- C9: under `missing='error'` the call aborts at the first missing
trajectory, having loaded exactly the present prefix before it; under
`missing='warn'` every present trajectory is loaded and every missing location
is recorded and reported; under `missing='ignore'` every present trajectory is
loaded and missing ones are skipped silently.  In all three cases the present
trajectories that are reached are loaded by the same `loadTraj`. -/
theorem load_data_policies {τ δ : Type} (present : τ → Bool) (loadTraj : τ → δ)
    (ts : List τ) :
    load_data present loadTraj .error ts =
      ⟨(ts.takeWhile present).map loadTraj, [], ts.find? (fun t => !present t)⟩ ∧
    load_data present loadTraj .warn ts =
      ⟨(ts.filter present).map loadTraj, ts.filter (fun t => !present t), none⟩ ∧
    load_data present loadTraj .ignore ts =
      ⟨(ts.filter present).map loadTraj, [], none⟩ := by
  induction ts with
  | nil => exact ⟨rfl, rfl, rfl⟩
  | cons t ts ih =>
    obtain ⟨ih1, ih2, ih3⟩ := ih
    by_cases h : present t
    · refine ⟨?_, ?_, ?_⟩
      · simp [load_data, h, ih1, List.takeWhile_cons, List.find?_cons_of_neg]
      · simp [load_data, h, ih2, List.filter_cons]
      · simp [load_data, h, ih3, List.filter_cons]
    · refine ⟨?_, ?_, ?_⟩
      · simp [load_data, h, List.takeWhile_cons, List.find?_cons_of_pos]
      · simp [load_data, h, ih2, List.filter_cons]
      · simp [load_data, h, ih3, List.filter_cons]

/-- Mean of a column of samples, `numpy.mean` on a nonempty array. -/
def meanQ (l : List ℚ) : ℚ := l.sum / l.length

/-- Population variance of a column of samples, the square of `numpy.std`. -/
def varQ (l : List ℚ) : ℚ := ((l.map (fun x => (x - meanQ l) ^ 2)).sum) / l.length

/-- The `lastW` cumulative-window Gaussian means of one macrostate column
(`MSM.bootstrapping_convergence`, `_msm.py` lines 1807-1813): window i fits a
Gaussian to the first `n - lastW + i + 1` samples of the column; the scipy
curve fit of `MSM.__fit_gaus` is external numerics, abstracted as `fitG`, and
`none` models a `RuntimeError` (the fit failed to converge), which makes the
whole computation fail. -/
def winMeans (fitG : List ℚ → Option ℚ) (lastW : ℕ) (col : List ℚ) : Option (List ℚ) :=
  (List.range lastW).mapM (fun i => fitG (col.take (col.length - lastW + i + 1)))

/-- One column of `MSM.bootstrapping_convergence`: short columns and failed
fits are not converged; otherwise the column is converged when every window
mean deviates from the mean of the window means by strictly less than `tol`
(`diff = abs(mu_values - av_value); converged = all(diff < tol)`). -/
def colConverged (fitG : List ℚ → Option ℚ) (tol : ℚ) (lastW : ℕ) (col : List ℚ) : Bool :=
  if col.length < lastW then false
  else
    match winMeans fitG lastW col with
    | none => false
    | some mus => mus.all (fun m => decide (|m - meanQ mus| < tol))

/-- `MSM.bootstrapping_convergence` (lines 1801-1822) on the columns of the
accumulated probability matrix: the run is converged iff every macrostate
column is converged (the Python loop returns False at the first column that
is not). -/
def bootstrapping_convergence (fitG : List ℚ → Option ℚ) (cols : List (List ℚ))
    (tol : ℚ) (lastW : ℕ) : Bool :=
  cols.all (colConverged fitG tol lastW)

/-- The per-column aggregation test exactly as claim C5 states it: the sample
standard deviation of the window means (the nonnegative square root of their
variance) lies within `tol` absolute units of the mean of the window means. -/
def stdWithinTol (tol : ℚ) (mus : List ℚ) : Prop :=
  ∃ s : ℚ, 0 ≤ s ∧ s * s = varQ mus ∧ |s - meanQ mus| < tol

/-- Claim C5 as stated: the run converges iff every column is long enough,
all Gaussian fits succeed, and each column passes the standard-deviation
test `stdWithinTol`. -/
def claimFiveConverged (fitG : List ℚ → Option ℚ) (tol : ℚ) (lastW : ℕ)
    (cols : List (List ℚ)) : Prop :=
  ∀ col ∈ cols, lastW ≤ col.length ∧
    ∃ mus, winMeans fitG lastW col = some mus ∧ stdWithinTol tol mus

theorem colConverged_iff (fitG : List ℚ → Option ℚ) (tol : ℚ) (lastW : ℕ) (col : List ℚ) :
    colConverged fitG tol lastW col = true ↔
      lastW ≤ col.length ∧ ∃ mus, winMeans fitG lastW col = some mus ∧
        ∀ m ∈ mus, |m - meanQ mus| < tol := by
  unfold colConverged
  by_cases h : col.length < lastW
  · simp only [if_pos h]
    constructor
    · intro hfalse; exact absurd hfalse (by simp)
    · intro ⟨hle, _⟩; omega
  · simp only [if_neg h]
    cases hw : winMeans fitG lastW col with
    | none =>
      constructor
      · intro hfalse; exact absurd hfalse (by simp)
      · rintro ⟨-, mus, hmus, -⟩; simp at hmus
    | some mus =>
      simp only [List.all_eq_true, decide_eq_true_eq]
      constructor
      · intro hall; exact ⟨by omega, mus, rfl, hall⟩
      · rintro ⟨-, mus2, hmus2, hall⟩
        obtain rfl : mus = mus2 := by injection hmus2
        exact hall

/-- C5 (amended): the run is converged iff for every macrostate column the
column holds at least `lastW` samples, every cumulative-window Gaussian fit
succeeds, and every one of the last `lastW` window means lies strictly within
`tol` absolute units of the mean of those window means (the code tests the
individual deviations from the mean, not the standard deviation); any failed
fit or any failing column makes the result False. -/
theorem bootstrapping_convergence_spec (fitG : List ℚ → Option ℚ)
    (cols : List (List ℚ)) (tol : ℚ) (lastW : ℕ) :
    bootstrapping_convergence fitG cols tol lastW = true ↔
      ∀ col ∈ cols, lastW ≤ col.length ∧
        ∃ mus, winMeans fitG lastW col = some mus ∧
          ∀ m ∈ mus, |m - meanQ mus| < tol := by
  unfold bootstrapping_convergence
  rw [List.all_eq_true]
  exact forall₂_congr (fun col _ => colConverged_iff fitG tol lastW col)

theorem winMeans_const_two : winMeans (fun _ => some 10) 2 [0, 0] = some [10, 10] := by
  rfl

/-- C5 counterexample: one macrostate column [0, 0] with tol = 1, lastW = 2,
and a Gaussian fit returning mean 10 on every window.  The code converges
(both window means equal 10, zero deviation), but the claim as stated does
not: the standard deviation of the window means is 0, which is not within
1 unit of their mean 10. -/
theorem bootstrapping_convergence_counterexample :
    bootstrapping_convergence (fun _ => some 10) [[0, 0]] 1 2 = true ∧
    ¬ claimFiveConverged (fun _ => some 10) 1 2 [[0, 0]] := by
  constructor
  · rw [bootstrapping_convergence_spec]
    intro col hcol
    obtain rfl : col = [0, 0] := by simpa using hcol
    refine ⟨by norm_num, [10, 10], winMeans_const_two, ?_⟩
    intro m hm
    have hm10 : m = 10 := by simpa using hm
    norm_num [hm10, meanQ]
  · intro hclaim
    obtain ⟨-, mus, hmus, s, hs0, hss, hlt⟩ := hclaim [0, 0] (by simp)
    rw [winMeans_const_two] at hmus
    obtain rfl : mus = [10, 10] := by injection hmus with h; exact h.symm
    have hvar : varQ [10, 10] = 0 := by norm_num [varQ, meanQ]
    rw [hvar] at hss
    obtain rfl : s = 0 := mul_self_eq_zero.mp hss
    have : meanQ [10, 10] = 10 := by norm_num [meanQ]
    rw [this] at hlt
    norm_num at hlt

/-- The accumulation loop of `MSM.bootstrapping` (`_msm.py` lines 1892-1910)
along an exception-free run.  `next i` abstracts the probability row obtained
from the i-th successful `__build_bootstrapped_msm` build (external resampling
and estimation); `conv` abstracts `bootstrapping_convergence` applied to the
accumulated row matrix.  The state is the iteration counter `i`, the
accumulated probability rows, and the `converged` flag; the loop guard is the
code's `while (not converged and i <= max_iter) or i <= min_iter`, and the
convergence flag is recomputed only once `i >= min_iter`. -/
def bootstrapLoop (conv : List (List ℚ) → Bool) (next : ℕ → List ℚ) (minI maxI : ℕ)
    (i : ℕ) (rows : List (List ℚ)) (c : Bool) : List (List ℚ) :=
  if h : (c = false ∧ i ≤ maxI) ∨ i ≤ minI then
    bootstrapLoop conv next minI maxI (i + 1) (rows ++ [next i])
      (if minI ≤ i then conv (rows ++ [next i]) else c)
  else rows
termination_by max minI maxI + 1 - i
decreasing_by rcases h with ⟨-, h2⟩ | h2 <;> omega

theorem bootstrapLoop_length_ge (conv : List (List ℚ) → Bool) (next : ℕ → List ℚ)
    (minI maxI : ℕ) :
    ∀ k i rows c, max minI maxI + 1 - i ≤ k →
      rows.length + (minI + 1 - i) ≤ (bootstrapLoop conv next minI maxI i rows c).length := by
  intro k
  induction k with
  | zero =>
    intro i rows c hk
    rw [bootstrapLoop, dif_neg (by rintro (⟨-, h2⟩ | h2) <;> omega)]
    omega
  | succ k ih =>
    intro i rows c hk
    rw [bootstrapLoop]
    by_cases hg : (c = false ∧ i ≤ maxI) ∨ i ≤ minI
    · rw [dif_pos hg]
      have hrec := ih (i + 1) (rows ++ [next i])
        (if minI ≤ i then conv (rows ++ [next i]) else c) (by omega)
      simp only [List.length_append, List.length_cons, List.length_nil] at hrec
      omega
    · rw [dif_neg hg]
      have hmin : ¬ i ≤ minI := fun hle => hg (Or.inr hle)
      omega

theorem bootstrapLoop_length_le (conv : List (List ℚ) → Bool) (next : ℕ → List ℚ)
    (minI maxI : ℕ) :
    ∀ k i rows c, max minI maxI + 1 - i ≤ k →
      (bootstrapLoop conv next minI maxI i rows c).length ≤
        rows.length + (max minI maxI + 1 - i) := by
  intro k
  induction k with
  | zero =>
    intro i rows c hk
    rw [bootstrapLoop, dif_neg (by rintro (⟨-, h2⟩ | h2) <;> omega)]
    omega
  | succ k ih =>
    intro i rows c hk
    rw [bootstrapLoop]
    by_cases hg : (c = false ∧ i ≤ maxI) ∨ i ≤ minI
    · rw [dif_pos hg]
      have hrec := ih (i + 1) (rows ++ [next i])
        (if minI ≤ i then conv (rows ++ [next i]) else c) (by omega)
      have hbound : i ≤ max minI maxI := by rcases hg with ⟨-, h2⟩ | h2 <;> omega
      simp only [List.length_append, List.length_cons, List.length_nil] at hrec
      omega
    · rw [dif_neg hg]
      omega

theorem bootstrapLoop_length_min_eq_max (conv : List (List ℚ) → Bool)
    (next : ℕ → List ℚ) (minI : ℕ) :
    ∀ k i rows c, minI + 1 - i ≤ k →
      (bootstrapLoop conv next minI minI i rows c).length = rows.length + (minI + 1 - i) := by
  intro k
  induction k with
  | zero =>
    intro i rows c hk
    rw [bootstrapLoop, dif_neg (by rintro (⟨-, h2⟩ | h2) <;> omega)]
    omega
  | succ k ih =>
    intro i rows c hk
    rw [bootstrapLoop]
    by_cases hi : i ≤ minI
    · rw [dif_pos (Or.inr hi)]
      have hrec := ih (i + 1) (rows ++ [next i])
        (if minI ≤ i then conv (rows ++ [next i]) else c) (by omega)
      simp only [List.length_append, List.length_cons, List.length_nil] at hrec
      omega
    · rw [dif_neg (by rintro (⟨-, h2⟩ | h2) <;> omega)]
      omega

theorem bootstrapLoop_length_constFalse (next : ℕ → List ℚ) (minI maxI : ℕ) :
    ∀ k i rows, max minI maxI + 1 - i ≤ k →
      (bootstrapLoop (fun _ => false) next minI maxI i rows false).length =
        rows.length + (max minI maxI + 1 - i) := by
  intro k
  induction k with
  | zero =>
    intro i rows hk
    rw [bootstrapLoop, dif_neg (by rintro (⟨-, h2⟩ | h2) <;> omega)]
    omega
  | succ k ih =>
    intro i rows hk
    rw [bootstrapLoop]
    by_cases hg : ((false : Bool) = false ∧ i ≤ maxI) ∨ i ≤ minI
    · rw [dif_pos hg]
      have hflag : (if minI ≤ i then (fun _ => false) (rows ++ [next i]) else false) = false := by
        by_cases hmi : minI ≤ i <;> simp [hmi]
      rw [hflag]
      have hrec := ih (i + 1) (rows ++ [next i]) (by omega)
      have hbound : i ≤ max minI maxI := by rcases hg with ⟨-, h2⟩ | h2 <;> omega
      simp only [List.length_append, List.length_cons, List.length_nil] at hrec
      omega
    · rw [dif_neg hg]
      have : ¬ i ≤ maxI := fun hle => hg (Or.inl ⟨rfl, hle⟩)
      have : ¬ i ≤ minI := fun hle => hg (Or.inr hle)
      omega

/-- C6 (amended): a fresh exception-free bootstrapping run accumulates at
least `min_iter` rows, at most `max(min_iter, max_iter)` rows (so `max_iter`
bounds the loop exactly when `min_iter <= max_iter`; with `min_iter >
max_iter` the loop runs to `min_iter`), and with `min_iter = max_iter` it
accumulates exactly `min_iter` rows regardless of the convergence test. -/
theorem bootstrapping_loop_bounds (conv : List (List ℚ) → Bool) (next : ℕ → List ℚ)
    (minI maxI : ℕ) :
    minI ≤ (bootstrapLoop conv next minI maxI 1 [] false).length ∧
    (bootstrapLoop conv next minI maxI 1 [] false).length ≤ max minI maxI ∧
    (minI ≤ maxI → (bootstrapLoop conv next minI maxI 1 [] false).length ≤ maxI) ∧
    (minI = maxI → (bootstrapLoop conv next minI maxI 1 [] false).length = minI) := by
  have hge := bootstrapLoop_length_ge conv next minI maxI (max minI maxI + 1) 1 [] false (by omega)
  have hle := bootstrapLoop_length_le conv next minI maxI (max minI maxI + 1) 1 [] false (by omega)
  simp only [List.length_nil] at hge hle
  refine ⟨by omega, by omega, fun hmm => ?_, fun hmm => ?_⟩
  · have : max minI maxI = maxI := Nat.max_eq_right hmm
    omega
  · subst hmm
    have heq := bootstrapLoop_length_min_eq_max conv next minI (minI + 1) 1 [] false (by omega)
    simp only [List.length_nil] at heq
    omega

/-- Witness for C6 at min_iter = max_iter = 5 (end-to-end scenario D):
exactly 5 probability rows are accumulated even though the convergence test
always succeeds. -/
theorem bootstrapping_loop_witness :
    (bootstrapLoop (fun _ => true) (fun _ => [1]) 5 5 1 [] false).length = 5 :=
  (bootstrapping_loop_bounds (fun _ => true) (fun _ => [1]) 5 5).2.2.2 rfl

/-- C6 counterexample: with min_iter = 3 greater than max_iter = 1 and a
convergence test that never succeeds, a fresh exception-free run accumulates
3 rows, exceeding max_iter — the loop is bounded by max(min_iter, max_iter),
not by max_iter alone. -/
theorem bootstrapping_loop_counterexample :
    (bootstrapLoop (fun _ => false) (fun _ => [0]) 3 1 1 [] false).length = 3 ∧
    ¬ ((bootstrapLoop (fun _ => false) (fun _ => [0]) 3 1 1 [] false).length ≤ 1) := by
  have h := bootstrapLoop_length_constFalse (fun _ => [0]) 3 1 4 1 [] (by omega)
  simp only [List.length_nil] at h
  constructor
  · rw [h]; decide
  · rw [h]; decide

/-- The destructive fix-up of `MSM.compute_mfpt` (`_msm.py` lines 1538-1542):
each macrostate member list of the cached `msm.pcca[n_states]` partition is
overwritten in place with
`[np.where(active_set == center)[0][0] for center in centers if center in active_set]`,
the active-set-local positions of those members that lie in the active set. -/
def compute_mfpt_fix_sets (active : List ℕ) (sets : List (List ℕ)) : List (List ℕ) :=
  sets.map (fun s =>
    (s.filter (fun c => decide (c ∈ active))).map (fun c => List.indexOf c active))

/-- C10 counterexample: for a fully connected MSM (active set = all K
microstates, here K = 2) the in-place localisation of `compute_mfpt` rewrites
the cached partition to itself: afterwards it still contains the original
microstate indices and still covers all K microstates exactly once, so the
claim's unconditional "no longer contains original microstate indices and no
longer covers all K microstates" fails. -/
theorem compute_mfpt_fix_sets_counterexample :
    compute_mfpt_fix_sets [0, 1] [[0], [1]] = [[0], [1]] ∧
    (∀ k < 2, ((compute_mfpt_fix_sets [0, 1] [[0], [1]]).flatten).count k = 1) := by
  decide

/-- C10 (amended): `compute_mfpt` overwrites the cached `pcca[n_states]`
member lists in place with active-set-local indices, silently dropping
members outside the active set; every index it stores is an active-set
position (< |active_set|), so whenever the active set is smaller than the
cluster count K (any disconnected or unobserved microstate) the cached
partition no longer covers all K microstates — microstate K-1 belongs to no
set after the call — and this is seen by every later operation reading the
same cache entry.  (For a fully connected MSM the localisation is the
identity, hence the amendment; see the counterexample.) -/
theorem compute_mfpt_fix_sets_spec (active : List ℕ) (sets : List (List ℕ)) (K : ℕ)
    (hK : active.length < K) :
    (∀ x ∈ (compute_mfpt_fix_sets active sets).flatten, x < active.length) ∧
    (K - 1) ∉ (compute_mfpt_fix_sets active sets).flatten := by
  have hbound : ∀ x ∈ (compute_mfpt_fix_sets active sets).flatten, x < active.length := by
    intro x hx
    rw [List.mem_flatten] at hx
    obtain ⟨s, hs, hxs⟩ := hx
    rw [compute_mfpt_fix_sets, List.mem_map] at hs
    obtain ⟨s0, hs0, rfl⟩ := hs
    rw [List.mem_map] at hxs
    obtain ⟨c, hc, rfl⟩ := hxs
    have hcmem : c ∈ active := by
      have := List.mem_filter.mp hc
      simpa using this.2
    exact List.indexOf_lt_length.mpr hcmem
  refine ⟨hbound, fun hmem => ?_⟩
  have := hbound _ hmem
  omega

/-- Witness for C10 (amended): active set [1] inside K = 2 microstates; the
cached set [[0, 1]] becomes [[0]] (local indices) and microstate 1 = K-1 is
no longer covered. -/
theorem compute_mfpt_fix_sets_witness :
    (∀ x ∈ (compute_mfpt_fix_sets [1] [[0, 1]]).flatten, x < ([1] : List ℕ).length) ∧
    (2 - 1) ∉ (compute_mfpt_fix_sets [1] [[0, 1]]).flatten :=
  compute_mfpt_fix_sets_spec [1] [[0, 1]] 2 (by decide)

/-- Time units accepted by `ammo.utils.__parse_time`. -/
inductive TimeUnit
| fs
| ps
| ns
| us
| ms
| s

/-- The exponent table `conversion` of `__parse_time` (`_utils.py` line 171). -/
def unitExp : TimeUnit → ℤ
  | .fs => -15
  | .ps => -12
  | .ns => -9
  | .us => -6
  | .ms => -3
  | .s => 0

/-- The exact physical time in seconds denoted by the string "v u"; the
mathematical quantity that the claim's floor(lag_time / timestep) refers to. -/
def timeSeconds (v : ℤ) (u : TimeUnit) : ℚ := (v : ℚ) * (10 : ℚ) ^ (unitExp u)

/-- The IEEE binary64 double nearest to 0.1, namely 3602879701896397 * 2^-55,
slightly larger than 1/10.  This is the value
`__parse_time("100 fs", 'ps', 3, 'number')` actually returns in CPython:
`round(100 * 10**-15 * 10**12, 3)` evaluates to the float printed as 0.1,
whose exact value is this rational (1/10 is not representable in binary64). -/
def timestepDouble100fs : ℚ := 3602879701896397 / 2 ^ 55

/-- The lag `MSM.build_msm` (`_msm.py` lines 1233-1236, and the identical
fix-up in `MSM.bootstrapping`, lines 1872-1875) computes from the two parsed
picosecond doubles: CPython's float floor division `msm_step // traj_step`
returns the floor of the exact quotient of the two stored double values
whenever that floor is representable, as it is at every realistic lag (the
exact `fmod` inside float_divmod determines the result).  The doubles enter
by their exact rational values. -/
def lagStepsDoubles (msmStep trajStep : ℚ) : ℤ := ⌊msmStep / trajStep⌋

/-- C8: evaluation of the lag fix-up at the failing input lag_time = "1 ps",
timestep = "100 fs".  `__parse_time` stores the doubles 1.0 and
`timestepDouble100fs` (not 1/10), so the program computes
`1.0 // 0.1 = 9.0` and builds the model at lag 9 steps, whereas the claimed
floor(lag_time / timestep) = floor(1 ps / 100 fs) is 10: the float
floor-division result is not the floor of the physical-time ratio, because
the stored timestep double differs from 1/10. -/
theorem lagSteps_float_divergence :
    lagStepsDoubles 1 timestepDouble100fs = 9 ∧
    ⌊timeSeconds 1 TimeUnit.ps / timeSeconds 100 TimeUnit.fs⌋ = 10 ∧
    timestepDouble100fs ≠ 1 / 10 := by
  refine ⟨?_, ?_, ?_⟩
  · norm_num [lagStepsDoubles, timestepDouble100fs]
  · norm_num [timeSeconds, unitExp]
  · norm_num [timestepDouble100fs]

/-- Componentwise vector addition (numpy array addition on equal shapes). -/
def vadd (a b : Vec) : Vec := List.zipWith (· + ·) a b

/-- Scalar multiple of a vector. -/
def vsmul (q : ℚ) (v : Vec) : Vec := v.map (fun x => q * x)

/-- `numpy.mean(axis=0)` over a list of vectors: `none` models the array of
NaN produced by the mean of an empty slice. -/
def vmean : List Vec → Option Vec
  | [] => none
  | v :: vs => some (vsmul (1 / ((vs.length : ℚ) + 1)) (vs.foldl vadd v))

/-- `numpy.mean` of a list of scalars: `none` models the NaN produced by the
mean of an empty slice. -/
def nanMeanQ (l : List ℚ) : Option ℚ :=
  match l with
  | [] => none
  | _ => some (l.sum / l.length)

/-- The comparison `np.argsort` effectively uses: NaN (`none`) sorts after
every real value. -/
def optLeB : Option ℚ → Option ℚ → Bool
  | none, none => true
  | some _, none => true
  | none, some _ => false
  | some a, some b => decide (a ≤ b)

/-- `numpy.ndarray.max`: NaN (`none`) propagates. -/
def npMaxQ : List (Option ℚ) → Option ℚ
  | [] => none
  | x :: xs =>
    xs.foldl (fun acc o =>
      match acc, o with
      | some a, some b => some (max a b)
      | _, _ => none) x

/-- Index of the first minimal entry of a list of rationals (the tie rule of
`np.argmin`). -/
def argminQ : List ℚ → ℕ
  | [] => 0
  | [_] => 0
  | x :: y :: xs =>
    if x ≤ (y :: xs).getD (argminQ (y :: xs)) 0 then 0 else argminQ (y :: xs) + 1

/-- `np.argmin` on an array that may hold NaN (`none`): the index of the
first NaN if any, else the index of the first minimum. -/
def npArgmin (l : List (Option ℚ)) : ℕ :=
  if l.findIdx (fun o => o.isNone) < l.length then l.findIdx (fun o => o.isNone)
  else argminQ (l.map (fun o => o.getD 0))

/-- The remapping step of `MSM.run_pcca` (`_msm.py` lines 1274-1281): each
active-set-local metastable member index is replaced by the original
microstate index `connected_sets[0][center]`. -/
def remapSets (active : List ℕ) (metaSets : List (List ℕ)) : List (List ℕ) :=
  metaSets.map (fun s => s.map (fun c => active.getD c 0))

/-- The scoring step of `MSM.run_pcca` (lines 1284-1286): each metastable set
is scored by the mean of the norms of its member cluster centers.  `nrm`
abstracts `np.linalg.norm` of one center; an empty set scores NaN (the mean
of an empty slice). -/
def setScores (nrm : Vec → ℚ) (centers : List Vec) (sets : List (List ℕ)) : List (Option ℚ) :=
  sets.map (fun s => nanMeanQ (s.map (fun c => nrm (centers.getD c []))))

/-- The sentinel step of `MSM.run_pcca` (line 1289):
`distances[distances == 0.0] = distances.max() + 10`.  The mask only catches
scores that are exactly 0.0 (NaN compares unequal to 0.0), and the sentinel
is NaN whenever the maximum propagates a NaN. -/
def fixZeroScores (ds : List (Option ℚ)) : List (Option ℚ) :=
  ds.map (fun d => if d = some 0 then Option.map (fun m => m + 10) (npMaxQ ds) else d)

/-- The index comparison underlying `distances.argsort()`. -/
def keyLe (keys : List (Option ℚ)) (i j : ℕ) : Prop :=
  optLeB (keys.getD i none) (keys.getD j none) = true

instance (keys : List (Option ℚ)) : DecidableRel (keyLe keys) := fun i j => by
  unfold keyLe
  infer_instance

theorem optLeB_total (a b : Option ℚ) : optLeB a b = true ∨ optLeB b a = true := by
  cases a <;> cases b <;> simp [optLeB]
  exact le_total _ _

theorem optLeB_trans {a b c : Option ℚ} (h1 : optLeB a b = true) (h2 : optLeB b c = true) :
    optLeB a c = true := by
  cases a <;> cases b <;> cases c <;> simp [optLeB] at *
  exact le_trans h1 h2

instance (keys : List (Option ℚ)) : IsTotal ℕ (keyLe keys) :=
  ⟨fun _ _ => optLeB_total _ _⟩

instance (keys : List (Option ℚ)) : IsTrans ℕ (keyLe keys) :=
  ⟨fun _ _ _ h1 h2 => optLeB_trans h1 h2⟩

/-- `distances.argsort()` (line 1291): the microstate-set indices ordered by
ascending sentinel-adjusted score, NaN last. -/
def argsortIdx (keys : List (Option ℚ)) : List ℕ :=
  List.insertionSort (keyLe keys) (List.range keys.length)

/-- The reorder step of `MSM.run_pcca` (lines 1290-1292). -/
def reorderSets (nrm : Vec → ℚ) (centers : List Vec) (sets : List (List ℕ)) : List (List ℕ) :=
  (argsortIdx (fixZeroScores (setScores nrm centers sets))).map (fun j => sets.getD j [])

/-- The row of distances from one disconnected center to the frozen
per-macrostate mean centers `av` (line 1303):
`np.linalg.norm(cluster_av - center_xyz, axis=1)`.  `dist` abstracts the
Euclidean distance of two vectors; a NaN mean row (empty macrostate) yields a
NaN distance. -/
def discDists (dist : Vec → Vec → ℚ) (centers : List Vec) (av : List (Option Vec))
    (c : ℕ) : List (Option ℚ) :=
  av.map (Option.map (fun m => dist m (centers.getD c [])))

/-- The macrostate a disconnected center is folded into (line 1303):
`np.linalg.norm(cluster_av - center_xyz, axis=1).argmin()`. -/
def nearestState (dist : Vec → Vec → ℚ) (centers : List Vec) (av : List (Option Vec))
    (c : ℕ) : ℕ :=
  npArgmin (discDists dist centers av c)

/-- The disconnected-folding loop of `MSM.run_pcca` for `disconnected=None`
(lines 1298-1306): the per-macrostate means `av` are computed once before the
loop (`cluster_av`, line 1299) and frozen; each disconnected center is
appended to its nearest macrostate, whose member list is then sorted. -/
def foldAssign (dist : Vec → Vec → ℚ) (centers : List Vec) (av : List (Option Vec))
    (sets : List (List ℕ)) (disc : List ℕ) : List (List ℕ) :=
  disc.foldl (fun ss c =>
    ss.set (nearestState dist centers av c)
      (sortNat (ss.getD (nearestState dist centers av c) [] ++ [c]))) sets

/-- The frozen per-macrostate mean centers (`cluster_av`, line 1299). -/
def setsMeans (centers : List Vec) (sets : List (List ℕ)) : List (Option Vec) :=
  sets.map (fun s => vmean (s.map (fun c => centers.getD c [])))

/-- `MSM.run_pcca` (`_msm.py` lines 1270-1315) after the external
`msm.pcca(n_states)` call: `metaSets` are the active-set-local metastable
sets produced by pyemma, `connectedSets` the connected components
(`connected_sets[0]` is the active set), `centers` the cluster centers.
Returns the value cached in `self.pcca[n_states]`. -/
def run_pcca (nrm : Vec → ℚ) (dist : Vec → Vec → ℚ) (centers : List Vec)
    (connectedSets metaSets : List (List ℕ)) (disconnected : Option ℕ) : List (List ℕ) :=
  let reordered := reorderSets nrm centers (remapSets (connectedSets.getD 0 []) metaSets)
  let disc := (connectedSets.drop 1).flatten
  match disconnected with
  | none => foldAssign dist centers (setsMeans centers reordered) reordered disc
  | some j => reordered.set j (sortNat (reordered.getD j [] ++ disc))

/-- The Euclidean norm restricted to 1-dimensional center vectors, used to
instantiate the abstract `nrm` parameter on concrete inputs. -/
def norm1 (v : Vec) : ℚ := |v.getD 0 0|

/-- The Euclidean distance restricted to 1-dimensional vectors, used to
instantiate the abstract `dist` parameter on concrete inputs. -/
def dist1 (a b : Vec) : ℚ := |a.getD 0 0 - b.getD 0 0|

theorem map_getD_range {α : Type} (l : List α) (d : α) :
    (List.range l.length).map (fun i => l.getD i d) = l := by
  induction l with
  | nil => rfl
  | cons a t ih =>
    rw [List.length_cons, List.range_succ_eq_map, List.map_cons, List.map_map]
    simp only [Function.comp_def, Nat.succ_eq_add_one, List.getD_cons_zero,
      List.getD_cons_succ]
    rw [ih]

theorem countP_range_getD (l : List ℕ) (k : ℕ) :
    (List.range l.length).countP (fun i => l.getD i 0 == k) = l.count k := by
  induction l with
  | nil => rfl
  | cons a t ih =>
    rw [List.length_cons, List.range_succ_eq_map, List.countP_cons, List.countP_map]
    simp only [Function.comp_def, Nat.succ_eq_add_one, List.getD_cons_zero,
      List.getD_cons_succ]
    rw [ih, List.count_cons]

theorem argminQ_lt_length : ∀ (l : List ℚ), l ≠ [] → argminQ l < l.length
  | [], h => absurd rfl h
  | [_], _ => by simp [argminQ]
  | x :: y :: xs, _ => by
    rw [argminQ]
    by_cases hle : x ≤ (y :: xs).getD (argminQ (y :: xs)) 0
    · rw [if_pos hle]; simp
    · rw [if_neg hle]
      have := argminQ_lt_length (y :: xs) (by simp)
      simp only [List.length_cons] at *
      omega

theorem argminQ_min : ∀ (l : List ℚ) (i : ℕ), i < l.length →
    l.getD (argminQ l) 0 ≤ l.getD i 0
  | [], i, h => by simp at h
  | [x], i, h => by
    obtain rfl : i = 0 := by simp at h; omega
    simp [argminQ]
  | x :: y :: xs, i, h => by
    rw [argminQ]
    by_cases hle : x ≤ (y :: xs).getD (argminQ (y :: xs)) 0
    · rw [if_pos hle]
      cases i with
      | zero => simp
      | succ i2 =>
        have hi2 : i2 < (y :: xs).length := by
          simp only [List.length_cons] at h ⊢
          omega
        have := argminQ_min (y :: xs) i2 hi2
        calc (x :: y :: xs).getD 0 0 = x := rfl
          _ ≤ (y :: xs).getD (argminQ (y :: xs)) 0 := hle
          _ ≤ (y :: xs).getD i2 0 := this
          _ = (x :: y :: xs).getD (i2 + 1) 0 := rfl
    · rw [if_neg hle]
      push_neg at hle
      cases i with
      | zero =>
        calc (x :: y :: xs).getD (argminQ (y :: xs) + 1) 0
            = (y :: xs).getD (argminQ (y :: xs)) 0 := rfl
          _ ≤ x := le_of_lt hle
          _ = (x :: y :: xs).getD 0 0 := rfl
      | succ i2 =>
        have hi2 : i2 < (y :: xs).length := by
          simp only [List.length_cons] at h ⊢
          omega
        exact argminQ_min (y :: xs) i2 hi2

theorem npArgmin_lt_length (l : List (Option ℚ)) (h : l ≠ []) : npArgmin l < l.length := by
  rw [npArgmin]
  by_cases hi : l.findIdx (fun o => o.isNone) < l.length
  · rw [if_pos hi]; exact hi
  · rw [if_neg hi]
    have := argminQ_lt_length (l.map (fun o => o.getD 0)) (by simpa using h)
    simpa using this

theorem sortNat_congr_perm (a b : List ℕ) (h : a.Perm b) : sortNat a = sortNat b := by
  refine List.eq_of_perm_of_sorted ?_ (sortNat_sorted a) (sortNat_sorted b)
  exact (sortNat_perm a).trans (h.trans (sortNat_perm b).symm)

theorem sum_set_add (m : List ℕ) (t : ℕ) (e : ℕ) (ht : t < m.length) :
    (m.set t (m.getD t 0 + e)).sum = m.sum + e := by
  induction m generalizing t with
  | nil => simp at ht
  | cons a r ih =>
    cases t with
    | zero =>
      simp only [List.getD_cons_zero, List.set_cons_zero, List.sum_cons]
      omega
    | succ t2 =>
      have ht2 : t2 < r.length := by
        simp only [List.length_cons] at ht
        omega
      simp only [List.getD_cons_succ, List.set_cons_succ, List.sum_cons]
      rw [ih t2 ht2]
      omega

theorem count_flatten_set (sets : List (List ℕ)) (t : ℕ) (ht : t < sets.length)
    (extra : List ℕ) (k : ℕ) :
    ((sets.set t (sortNat (sets.getD t [] ++ extra))).flatten).count k
      = (sets.flatten).count k + extra.count k := by
  rw [List.count_flatten, List.count_flatten, List.map_set]
  have hsort : (sortNat (sets.getD t [] ++ extra)).count k
      = (sets.getD t [] ++ extra).count k := (sortNat_perm _).count_eq k
  rw [hsort, List.count_append]
  have hmaplen : t < (List.map (List.count k) sets).length := by simpa using ht
  have hgetD : List.count k (sets.getD t []) = (List.map (List.count k) sets).getD t 0 := by
    rw [List.getD_eq_getElem _ _ ht, List.getD_eq_getElem _ _ hmaplen, List.getElem_map]
  rw [hgetD]
  exact sum_set_add (List.map (List.count k) sets) t (extra.count k) hmaplen

theorem reorderSets_perm (nrm : Vec → ℚ) (centers : List Vec) (sets : List (List ℕ)) :
    (reorderSets nrm centers sets).Perm sets := by
  have hlen : (fixZeroScores (setScores nrm centers sets)).length = sets.length := by
    simp [fixZeroScores, setScores]
  have hperm : (argsortIdx (fixZeroScores (setScores nrm centers sets))).Perm
      (List.range sets.length) := by
    rw [argsortIdx, hlen]
    exact List.perm_insertionSort _ _
  have h1 : (reorderSets nrm centers sets).Perm
      ((List.range sets.length).map (fun j => sets.getD j [])) :=
    hperm.map (fun j => sets.getD j [])
  rw [map_getD_range sets []] at h1
  exact h1

theorem remapSets_count (active : List ℕ) (metaSets : List (List ℕ)) (k : ℕ)
    (hmeta : (metaSets.flatten).Perm (List.range active.length)) :
    ((remapSets active metaSets).flatten).count k = active.count k := by
  rw [remapSets, ← List.map_flatten, List.count_eq_countP, List.countP_map]
  rw [hmeta.countP_eq]
  have h := countP_range_getD active k
  rw [← h]
  rfl

theorem foldAssign_count (dist : Vec → Vec → ℚ) (centers : List Vec)
    (av : List (Option Vec)) (k : ℕ) (disc : List ℕ) :
    ∀ sets : List (List ℕ), 0 < sets.length → av.length = sets.length →
      ((foldAssign dist centers av sets disc).flatten).count k
          = (sets.flatten).count k + disc.count k ∧
      (foldAssign dist centers av sets disc).length = sets.length := by
  induction disc with
  | nil =>
    intro sets hn hlen
    exact ⟨by simp [foldAssign], by simp [foldAssign]⟩
  | cons c rest ih =>
    intro sets hn hlen
    have hav : av ≠ [] := by
      intro h0
      rw [h0] at hlen
      simp at hlen
      omega
    have ht : nearestState dist centers av c < sets.length := by
      have h1 := npArgmin_lt_length (discDists dist centers av c)
        (by simpa [discDists] using hav)
      rw [nearestState]
      have h2 : (discDists dist centers av c).length = sets.length := by
        simp [discDists, hlen]
      omega
    have hstep : foldAssign dist centers av sets (c :: rest)
        = foldAssign dist centers av
            (sets.set (nearestState dist centers av c)
              (sortNat (sets.getD (nearestState dist centers av c) [] ++ [c]))) rest := rfl
    obtain ⟨ihc, ihl⟩ := ih
      (sets.set (nearestState dist centers av c)
        (sortNat (sets.getD (nearestState dist centers av c) [] ++ [c])))
      (by rw [List.length_set]; exact hn) (by rw [List.length_set]; exact hlen)
    refine ⟨?_, ?_⟩
    · rw [hstep, ihc, count_flatten_set sets (nearestState dist centers av c) ht [c] k]
      by_cases hck : (c == k) = true <;>
        simp [List.count_cons, hck] <;> omega
    · rw [hstep, ihl, List.length_set]

theorem pcca_partition_count (nrm : Vec → ℚ) (dist : Vec → Vec → ℚ) (centers : List Vec)
    (connectedSets metaSets : List (List ℕ)) (disconnected : Option ℕ)
    (hobs : (connectedSets.flatten).Nodup)
    (hcs : connectedSets ≠ [])
    (hmeta : (metaSets.flatten).Perm (List.range (connectedSets.getD 0 []).length))
    (hn : 0 < metaSets.length)
    (hdis : ∀ j, disconnected = some j → j < metaSets.length) (k : ℕ) :
    ((run_pcca nrm dist centers connectedSets metaSets disconnected).flatten).count k
      = if k ∈ connectedSets.flatten then 1 else 0 := by
  obtain ⟨a, t, rfl⟩ : ∃ a t, connectedSets = a :: t := by
    cases connectedSets with
    | nil => exact absurd rfl hcs
    | cons a t => exact ⟨a, t, rfl⟩
  have hreordered_perm := reorderSets_perm nrm centers (remapSets a metaSets)
  have hreordered_len :
      (reorderSets nrm centers (remapSets a metaSets)).length = metaSets.length := by
    rw [hreordered_perm.length_eq]
    simp [remapSets]
  have hremap_count : ((remapSets a metaSets).flatten).count k = a.count k :=
    remapSets_count a metaSets k (by simpa using hmeta)
  have hreorder_count : ((reorderSets nrm centers (remapSets a metaSets)).flatten).count k
      = a.count k := by
    rw [(hreordered_perm.flatten).count_eq k, hremap_count]
  have hflat : ((a :: t) : List (List ℕ)).flatten = a ++ t.flatten := rfl
  have hcount_goal : a.count k + (t.flatten).count k
      = if k ∈ ((a :: t) : List (List ℕ)).flatten then 1 else 0 := by
    rw [hflat, ← List.count_append]
    by_cases hk : k ∈ a ++ t.flatten
    · rw [if_pos hk]
      exact List.count_eq_one_of_mem (by rw [hflat] at hobs; exact hobs) hk
    · rw [if_neg hk]
      exact List.count_eq_zero.mpr hk
  cases disconnected with
  | none =>
    have hrun : run_pcca nrm dist centers (a :: t) metaSets none
        = foldAssign dist centers
            (setsMeans centers (reorderSets nrm centers (remapSets a metaSets)))
            (reorderSets nrm centers (remapSets a metaSets)) (t.flatten) := rfl
    rw [hrun]
    have hfold := (foldAssign_count dist centers
      (setsMeans centers (reorderSets nrm centers (remapSets a metaSets))) k (t.flatten)
      (reorderSets nrm centers (remapSets a metaSets))
      (by rw [hreordered_len]; exact hn) (by simp [setsMeans])).1
    rw [hfold, hreorder_count, hcount_goal]
  | some j =>
    have hrun : run_pcca nrm dist centers (a :: t) metaSets (some j)
        = (reorderSets nrm centers (remapSets a metaSets)).set j
            (sortNat ((reorderSets nrm centers (remapSets a metaSets)).getD j []
              ++ t.flatten)) := rfl
    rw [hrun]
    have hj : j < (reorderSets nrm centers (remapSets a metaSets)).length := by
      rw [hreordered_len]
      exact hdis j rfl
    rw [count_flatten_set _ j hj (t.flatten) k, hreorder_count, hcount_goal]

/-- C2 (amended): for every MSM and every n_states, the sets cached in
pcca[n_states] by run_pcca, after disconnected-state folding (whether
`disconnected` is given or None), partition the set of observed microstates —
the union of all connected sets — exactly once: every observed microstate
index appears in exactly one set, no duplicates, no omissions.  This equals
the full range 0..K-1 precisely when every microstate occurs in some
connected set; a cluster center never visited by any trajectory belongs to no
connected set and to no cached set (see the counterexample). -/
theorem run_pcca_partition (nrm : Vec → ℚ) (dist : Vec → Vec → ℚ) (centers : List Vec)
    (connectedSets metaSets : List (List ℕ)) (disconnected : Option ℕ)
    (hobs : (connectedSets.flatten).Nodup)
    (hcs : connectedSets ≠ [])
    (hmeta : (metaSets.flatten).Perm (List.range (connectedSets.getD 0 []).length))
    (hn : 0 < metaSets.length)
    (hdis : ∀ j, disconnected = some j → j < metaSets.length) :
    ∀ k, ((run_pcca nrm dist centers connectedSets metaSets disconnected).flatten).count k
      = if k ∈ connectedSets.flatten then 1 else 0 :=
  fun k => pcca_partition_count nrm dist centers connectedSets metaSets disconnected
    hobs hcs hmeta hn hdis k

/-- C2 counterexample: K = 3 cluster centers but microstate 2 was never
visited, so the connected sets are [[0, 1]] and pcca with n_states = 2 leaves
microstate 2 (< K) in no cached set — the sets do not partition 0..K-1. -/
theorem run_pcca_partition_counterexample :
    (([[1], [2], [3]] : List Vec).length = 3) ∧
    ((run_pcca norm1 dist1 [[1], [2], [3]] [[0, 1]] [[0], [1]] none).flatten).count 2 = 0 := by
  refine ⟨rfl, ?_⟩
  rw [pcca_partition_count norm1 dist1 [[1], [2], [3]] [[0, 1]] [[0], [1]] none
    (by decide) (by decide) (by decide) (by decide) (fun j hj => by cases hj) 2]
  decide

/-- Witness for C2 (amended) at a concrete input: connected sets
[[0, 1], [2]] (active [0, 1], disconnected [2]), metastable sets [[0], [1]],
disconnected folded into state 0. -/
theorem run_pcca_partition_witness :
    ((run_pcca norm1 dist1 [[1], [2], [3]] [[0, 1], [2]] [[0], [1]] (some 0)).flatten).count 2
      = if 2 ∈ ([[0, 1], [2]] : List (List ℕ)).flatten then 1 else 0 :=
  run_pcca_partition norm1 dist1 [[1], [2], [3]] [[0, 1], [2]] [[0], [1]] (some 0)
    (by decide) (by decide) (by decide) (by decide)
    (fun j hj => by injection hj with h; subst h; decide) 2

theorem getD_set_self {α : Type} (l : List α) (t : ℕ) (x d : α) (ht : t < l.length) :
    (l.set t x).getD t d = x := by
  rw [List.getD_eq_getElem?_getD, List.getElem?_set_self ht]
  rfl

theorem getD_set_ne {α : Type} (l : List α) (t i : ℕ) (x d : α) (h : t ≠ i) :
    (l.set t x).getD i d = l.getD i d := by
  rw [List.getD_eq_getElem?_getD, List.getElem?_set_ne h, ← List.getD_eq_getElem?_getD]

theorem getD_map_range {α : Type} (f : ℕ → α) (n i : ℕ) (hi : i < n) (d : α) :
    ((List.range n).map f).getD i d = f i := by
  rw [List.getD_eq_getElem _ _ (by simp [hi]), List.getElem_map, List.getElem_range]

theorem nearestState_lt (dist : Vec → Vec → ℚ) (centers : List Vec)
    (av : List (Option Vec)) (c : ℕ) (sets : List (List ℕ)) (hn : 0 < sets.length)
    (hlen : av.length = sets.length) : nearestState dist centers av c < sets.length := by
  have hav : av ≠ [] := by
    intro h0
    rw [h0] at hlen
    simp at hlen
    omega
  have h1 := npArgmin_lt_length (discDists dist centers av c)
    (by simpa [discDists] using hav)
  rw [nearestState]
  have h2 : (discDists dist centers av c).length = av.length := by simp [discDists]
  omega

theorem foldAssign_filter_eq (dist : Vec → Vec → ℚ) (centers : List Vec)
    (av : List (Option Vec)) (disc : List ℕ) :
    ∀ sets : List (List ℕ), 0 < sets.length → av.length = sets.length →
      foldAssign dist centers av sets disc =
        (List.range sets.length).map (fun i =>
          if (disc.filter (fun c => nearestState dist centers av c == i)).isEmpty
          then sets.getD i []
          else sortNat (sets.getD i []
            ++ disc.filter (fun c => nearestState dist centers av c == i))) := by
  induction disc with
  | nil =>
    intro sets hn hlen
    simp only [foldAssign, List.foldl_nil, List.filter_nil, List.isEmpty_nil, if_true]
    exact (map_getD_range sets []).symm
  | cons c rest ih =>
    intro sets hn hlen
    have ht := nearestState_lt dist centers av c sets hn hlen
    have hstep : foldAssign dist centers av sets (c :: rest)
        = foldAssign dist centers av
            (sets.set (nearestState dist centers av c)
              (sortNat (sets.getD (nearestState dist centers av c) [] ++ [c]))) rest := rfl
    rw [hstep, ih (sets.set (nearestState dist centers av c)
        (sortNat (sets.getD (nearestState dist centers av c) [] ++ [c])))
      (by rw [List.length_set]; exact hn) (by rw [List.length_set]; exact hlen)]
    rw [List.length_set]
    apply List.map_congr_left
    intro i hi
    rw [List.mem_range] at hi
    by_cases hit : nearestState dist centers av c = i
    · subst hit
      have hfc : (c :: rest).filter
            (fun x => nearestState dist centers av x == nearestState dist centers av c)
          = c :: rest.filter
              (fun x => nearestState dist centers av x == nearestState dist centers av c) := by
        rw [List.filter_cons, if_pos (by simp)]
      rw [hfc]
      have hset : (sets.set (nearestState dist centers av c)
            (sortNat (sets.getD (nearestState dist centers av c) [] ++ [c]))).getD
            (nearestState dist centers av c) []
          = sortNat (sets.getD (nearestState dist centers av c) [] ++ [c]) :=
        getD_set_self sets _ _ [] ht
      by_cases hre : (rest.filter
          (fun x => nearestState dist centers av x == nearestState dist centers av c)).isEmpty
      · rw [if_pos hre, hset]
        have hrl : rest.filter
            (fun x => nearestState dist centers av x == nearestState dist centers av c) = [] := by
          simpa [List.isEmpty_iff] using hre
        rw [hrl]
        simp
      · rw [if_neg hre, if_neg (by simp), hset]
        apply sortNat_congr_perm
        have h1 : (sortNat (sets.getD (nearestState dist centers av c) [] ++ [c])).Perm
            (sets.getD (nearestState dist centers av c) [] ++ [c]) := sortNat_perm _
        have h2 := h1.append_right (rest.filter
          (fun x => nearestState dist centers av x == nearestState dist centers av c))
        have h3 : (sets.getD (nearestState dist centers av c) [] ++ [c])
              ++ rest.filter
                (fun x => nearestState dist centers av x == nearestState dist centers av c)
            = sets.getD (nearestState dist centers av c) []
              ++ (c :: rest.filter
                (fun x => nearestState dist centers av x == nearestState dist centers av c)) := by
          simp
        rw [h3] at h2
        exact h2
    · have hfc : (c :: rest).filter (fun x => nearestState dist centers av x == i)
          = rest.filter (fun x => nearestState dist centers av x == i) := by
        rw [List.filter_cons, if_neg (by simpa using hit)]
      rw [hfc, getD_set_ne sets _ i _ [] hit]

theorem getD_map_getD (l : List (Option ℚ)) (n : ℕ) (hn : n < l.length) :
    (l.map (fun o => o.getD 0)).getD n 0 = (l.getD n none).getD 0 := by
  rw [List.getD_eq_getElem _ _ (by rw [List.length_map]; exact hn), List.getElem_map,
    List.getD_eq_getElem _ _ hn]

theorem nearestState_min (dist : Vec → Vec → ℚ) (centers : List Vec)
    (av : List (Option Vec)) (c : ℕ) (hsome : ∀ o ∈ av, o.isSome = true) (hav : av ≠ []) :
    ∃ q, (discDists dist centers av c).getD (nearestState dist centers av c) none = some q ∧
      ∀ i, i < av.length → ∀ r,
        (discDists dist centers av c).getD i none = some r → q ≤ r := by
  have hdsome : ∀ o ∈ discDists dist centers av c, o.isSome = true := by
    intro o ho
    rw [discDists, List.mem_map] at ho
    obtain ⟨o0, ho0, rfl⟩ := ho
    have h0 := hsome o0 ho0
    cases o0 with
    | none => simp at h0
    | some v => simp
  have hlen : (discDists dist centers av c).length = av.length := by simp [discDists]
  have hlnil : discDists dist centers av c ≠ [] := by
    intro h0
    rw [h0] at hlen
    simp at hlen
    exact hav (List.length_eq_zero.mp hlen.symm)
  have hargmin_eq : nearestState dist centers av c
      = argminQ ((discDists dist centers av c).map (fun o => o.getD 0)) := by
    rw [nearestState, npArgmin, if_neg]
    rw [List.findIdx_eq_length.mpr ?_]
    · omega
    · intro o ho
      have h0 := hdsome o ho
      cases o with
      | none => simp at h0
      | some v => simp
  have hlt : nearestState dist centers av c < (discDists dist centers av c).length := by
    rw [hargmin_eq]
    have := argminQ_lt_length ((discDists dist centers av c).map (fun o => o.getD 0))
      (by simpa using hlnil)
    simpa using this
  have hmemD : (discDists dist centers av c).getD (nearestState dist centers av c) none
      ∈ discDists dist centers av c := by
    rw [List.getD_eq_getElem _ _ hlt]
    exact List.getElem_mem _
  obtain ⟨q, hq⟩ : ∃ q, (discDists dist centers av c).getD
      (nearestState dist centers av c) none = some q := by
    have h0 := hdsome _ hmemD
    cases h1 : (discDists dist centers av c).getD (nearestState dist centers av c) none with
    | none => rw [h1] at h0; simp at h0
    | some v => exact ⟨v, rfl⟩
  refine ⟨q, hq, ?_⟩
  intro i hi r hr
  have hilt : i < (discDists dist centers av c).length := by omega
  have hmin := argminQ_min ((discDists dist centers av c).map (fun o => o.getD 0)) i
    (by rw [List.length_map]; exact hilt)
  rw [getD_map_getD _ i hilt, hr] at hmin
  rw [← hargmin_eq, getD_map_getD _ _ hlt, hq] at hmin
  simpa using hmin

/-- C4: in `run_pcca` with `disconnected=None` the per-macrostate mean
centers (`cluster_av`) are computed once before the folding loop and frozen:
the whole fold equals an independent assignment in which every disconnected
microstate goes to the macrostate whose pre-insertion mean center is nearest
(the argmin of the frozen distance row, which is minimal among all
macrostates when no macrostate is empty), earlier insertions never change
the means used for later microstates, and after the fold every receiving
macrostate's member list is sorted by microstate index. -/
theorem run_pcca_disconnected_fold_spec (dist : Vec → Vec → ℚ) (centers : List Vec)
    (sets : List (List ℕ)) (disc : List ℕ) (hn : 0 < sets.length)
    (hne : ∀ s ∈ sets, s ≠ []) :
    (foldAssign dist centers (setsMeans centers sets) sets disc =
      (List.range sets.length).map (fun i =>
        if (disc.filter
            (fun c => nearestState dist centers (setsMeans centers sets) c == i)).isEmpty
        then sets.getD i []
        else sortNat (sets.getD i [] ++ disc.filter
          (fun c => nearestState dist centers (setsMeans centers sets) c == i)))) ∧
    (∀ c, ∃ q, (discDists dist centers (setsMeans centers sets) c).getD
          (nearestState dist centers (setsMeans centers sets) c) none = some q ∧
        ∀ i, i < sets.length → ∀ r,
          (discDists dist centers (setsMeans centers sets) c).getD i none = some r →
            q ≤ r) ∧
    (∀ i, i < sets.length →
      ¬ (disc.filter
          (fun c => nearestState dist centers (setsMeans centers sets) c == i)).isEmpty →
      ((foldAssign dist centers (setsMeans centers sets) sets disc).getD i []).Sorted
        (· ≤ ·)) := by
  have hlen : (setsMeans centers sets).length = sets.length := by simp [setsMeans]
  have hsome : ∀ o ∈ setsMeans centers sets, o.isSome = true := by
    intro o ho
    rw [setsMeans, List.mem_map] at ho
    obtain ⟨s, hs, rfl⟩ := ho
    have hsne := hne s hs
    cases s with
    | nil => exact absurd rfl hsne
    | cons v vs => simp [vmean]
  have hav : setsMeans centers sets ≠ [] := by
    intro h0
    rw [h0] at hlen
    simp at hlen
    omega
  have heq := foldAssign_filter_eq dist centers (setsMeans centers sets) disc sets hn hlen
  refine ⟨heq, ?_, ?_⟩
  · intro c
    obtain ⟨q, hq1, hq2⟩ := nearestState_min dist centers (setsMeans centers sets) c hsome hav
    exact ⟨q, hq1, fun i hi r hr => hq2 i (by rw [hlen]; exact hi) r hr⟩
  · intro i hi hnonempty
    rw [heq, getD_map_range _ sets.length i hi []]
    rw [if_neg hnonempty]
    exact sortNat_sorted _

/-- Witness for C4 at a concrete input: macrostates [[0], [1]] with 1-d
centers 1 and 2, one disconnected microstate 2 with center 10. -/
theorem run_pcca_disconnected_fold_witness :
    foldAssign dist1 [[1], [2], [10]] (setsMeans [[1], [2], [10]] [[0], [1]]) [[0], [1]] [2] =
      (List.range ([[0], [1]] : List (List ℕ)).length).map (fun i =>
        if (([2] : List ℕ).filter (fun c =>
            nearestState dist1 [[1], [2], [10]]
              (setsMeans [[1], [2], [10]] [[0], [1]]) c == i)).isEmpty
        then ([[0], [1]] : List (List ℕ)).getD i []
        else sortNat (([[0], [1]] : List (List ℕ)).getD i []
          ++ ([2] : List ℕ).filter (fun c =>
            nearestState dist1 [[1], [2], [10]]
              (setsMeans [[1], [2], [10]] [[0], [1]]) c == i))) :=
  (run_pcca_disconnected_fold_spec dist1 [[1], [2], [10]] [[0], [1]] [2]
    (by decide) (by decide)).1

/-- C3: evaluation of `run_pcca`'s scoring and ordering at the failing input
of the sentinel slip (`_msm.py` lines 1287-1289).  Two non-empty metastable
sets, one holding only the center at the origin (mean distance exactly 0.0,
the smallest possible) and one holding the center at distance 5.  The code's
mask `distances == 0.0` hits the non-empty at-origin set, replaces its score
with `max + 10 = 15`, and orders it last: the result is [[1], [0]], although
macrostate [[0]] is non-empty with the smallest mean distance — contradicting
the claim.  Moreover an empty metastable set scores NaN (`none`, the mean of
an empty slice), not the sentinel, as the third conjunct shows. -/
theorem run_pcca_zero_distance_eval :
    run_pcca norm1 dist1 [[0], [5]] [[0, 1]] [[0], [1]] none = [[1], [0]] ∧
    fixZeroScores (setScores norm1 [[0], [5]] [[0], [1]]) = [some 15, some 5] ∧
    setScores norm1 [[0], [5]] [[], [1]] = [none, some 5] := by
  have hscores : setScores norm1 [[0], [5]] [[0], [1]] = [some 0, some 5] := by
    norm_num [setScores, nanMeanQ, norm1]
  have hfix : fixZeroScores [some 0, some 5] = [some 15, some 5] := by
    norm_num [fixZeroScores, npMaxQ]
  have hsort : argsortIdx [some 15, some 5] = [1, 0] := by
    norm_num [argsortIdx, List.insertionSort, List.orderedInsert, keyLe, optLeB,
      List.range_succ]
  have hremap : remapSets [0, 1] [[0], [1]] = [[0], [1]] := by decide
  have hrun : run_pcca norm1 dist1 [[0], [5]] [[0, 1]] [[0], [1]] none
      = reorderSets norm1 [[0], [5]] (remapSets [0, 1] [[0], [1]]) := rfl
  refine ⟨?_, ?_, ?_⟩
  · rw [hrun, hremap, reorderSets, hscores, hfix, hsort]
    decide
  · rw [hscores]
    exact hfix
  · norm_num [setScores, nanMeanQ, norm1]

end AMMo
